import Mathlib

/-
Verification of the skiplist package (skiplist.go).

The Go code is a generic in-memory skip list over an ordered key type.
We embed it shallowly: the generic key and value types are instantiated
at Int (the Go int instantiation, whose zero value is 0), and the heap
nodes live in an arena, a list of nodes addressed by stable indices, so
a Go pointer becomes an optional arena index (none is the nil pointer).
The head sentinel node is kept in its own field, exactly as the Go
struct does; Go code never makes a forward link point back at the head,
so links only ever carry arena indices.

The randomness source is made explicit: the level drawn by randLevel is
passed to Put as an argument randL; randLevel always yields a value in
[0, maxLevel], so theorems quantify over that argument.

Mutating operations return Option SkipList: none models a Go runtime
index-out-of-range fault on a forward-link array, which is the one
abnormal control path the source can take.
-/

namespace Skiplist

/-- One skip list node: key, value and the per-level forward links
(index 0 is the base level). A link is an arena index; none is nil.
Mirrors the node type of skiplist.go at key and value type Int. -/
structure Node where
  key : Int
  val : Int
  nextNodes : List (Option Nat)
deriving DecidableEq, Repr

/-- The skip list: configured maximum level, head sentinel and the arena
holding every non-sentinel node. Mirrors the SkipList struct of
skiplist.go; the rand source is externalized into the randL argument of
Put. -/
structure SkipList where
  maxLevel : Nat
  head : Node
  arena : List Node
deriving DecidableEq, Repr

/-- NewSkipList: nil (none) on a non-positive maxLevel, otherwise a
fresh container whose head sentinel has zero key, zero value and an
empty forward array. -/
def NewSkipList (maxLevel : Int) : Option SkipList :=
  if maxLevel ≤ 0 then none
  else some { maxLevel := maxLevel.toNat
              head := { key := 0, val := 0, nextNodes := [] }
              arena := [] }

/-- Level: the length of the head sentinel forward array (skiplist.go
Level; the nil cases of the Go code cannot arise in the model, an
absent array is the empty list). -/
def Level (sl : SkipList) : Nat := sl.head.nextNodes.length

/-- Dereference a position: none is the head sentinel, some i is arena
slot i (a dangling index, impossible in Go, dereferences to none). -/
def nodeAt (sl : SkipList) : Option Nat → Option Node
  | none => some sl.head
  | some i => sl.arena.get? i

/-- Read the forward link of the node at position p on level l. A read
past the end of the forward array yields nil; in every state the Go
code reaches, such a read never happens (nodes are only entered at
levels they occupy), so the model agrees with the source there. -/
def nextOf (sl : SkipList) (p : Option Nat) (l : Nat) : Option Nat :=
  (((nodeAt sl p).bind fun n => n.nextNodes.get? l)).getD none

/-- The key of the node at position p; the head sentinel carries the Go
zero value 0. -/
def keyOf (sl : SkipList) (p : Option Nat) : Int :=
  (((nodeAt sl p).map fun n => n.key)).getD 0

/-- The value of the node at position p; the head sentinel carries the
Go zero value 0. -/
def valOf (sl : SkipList) (p : Option Nat) : Int :=
  (((nodeAt sl p).map fun n => n.val)).getD 0

/-- Write the forward link of the node at position p on level l. Yields
none when the write is out of bounds for the forward array of that
node: the index-out-of-range fault of the Go code. -/
def setLink (sl : SkipList) (p : Option Nat) (l : Nat) (v : Option Nat) :
    Option SkipList :=
  match p with
  | none =>
    if l < sl.head.nextNodes.length then
      some { sl with head := { sl.head with nextNodes := sl.head.nextNodes.set l v } }
    else none
  | some i =>
    match sl.arena.get? i with
    | none => none
    | some n =>
      if l < n.nextNodes.length then
        some { sl with arena := sl.arena.set i { n with nextNodes := n.nextNodes.set l v } }
      else none

/-- Overwrite the value stored in arena slot i, leaving key and links
alone: the val assignment of the Put update path. -/
def updVal : List Node → Nat → Int → List Node
  | [], _, _ => []
  | n :: t, 0, v => { n with val := v } :: t
  | n :: t, i + 1, v => n :: updVal t i v

/-- The shared rightward walk of get, ceil, floor and Del on one level:
advance while the next node exists and its key is below the search key
(skiplist.go lines of the form: for head.nextNodes[l] != nil &&
head.nextNodes[l].key < key). Fuel bounds the iteration; every run the
source performs finishes within arena length steps. -/
def walkRight (sl : SkipList) (key : Int) (l : Nat) :
    Nat → Option Nat → Option Nat
  | 0, p => p
  | fuel + 1, p =>
    match nextOf sl p l with
    | none => p
    | some j =>
      if keyOf sl (some j) < key then walkRight sl key l fuel (some j) else p

/-- The level descent of skiplist.go get: walk right, report the next
node when its key matches, otherwise step down one level. The Nat
argument counts the levels still to process. -/
def getAux (sl : SkipList) (key : Int) : Nat → Option Nat → Option Nat
  | 0, _ => none
  | lv + 1, pos =>
    match nextOf sl (walkRight sl key lv (sl.arena.length + 1) pos) lv with
    | some j =>
      if keyOf sl (some j) = key then some j
      else getAux sl key lv (walkRight sl key lv (sl.arena.length + 1) pos)
    | none => getAux sl key lv (walkRight sl key lv (sl.arena.length + 1) pos)

/-- skiplist.go get: position of the node holding the key, or none. -/
def get (sl : SkipList) (key : Int) : Option Nat :=
  if Level sl = 0 then none else getAux sl key (Level sl) none

/-- skiplist.go Get: the stored value and an existence flag; the Go
zero value 0 is returned when the key is absent. -/
def Get (sl : SkipList) (key : Int) : Int × Bool :=
  if Level sl = 0 then (0, false)
  else
    match get sl key with
    | some j => (valOf sl (some j), true)
    | none => (0, false)

/-- The level descent of skiplist.go ceil: like get, but once every
level is processed the next base-level node after the final position is
returned. -/
def ceilAux (sl : SkipList) (target : Int) : Nat → Option Nat → Option Nat
  | 0, pos => nextOf sl pos 0
  | lv + 1, pos =>
    match nextOf sl (walkRight sl target lv (sl.arena.length + 1) pos) lv with
    | some j =>
      if keyOf sl (some j) = target then some j
      else ceilAux sl target lv (walkRight sl target lv (sl.arena.length + 1) pos)
    | none => ceilAux sl target lv (walkRight sl target lv (sl.arena.length + 1) pos)

/-- skiplist.go ceil: position of the node with the least key at or
above target, as the source computes it. -/
def ceil (sl : SkipList) (target : Int) : Option Nat :=
  if Level sl = 0 then none else ceilAux sl target (Level sl) none

/-- skiplist.go Ceil: key-value pair of the ceiling node, with the
found flag encoded as Option. -/
def Ceil (sl : SkipList) (target : Int) : Option (Int × Int) :=
  if Level sl = 0 then none
  else
    match ceil sl target with
    | some j => some (keyOf sl (some j), valOf sl (some j))
    | none => none

/-- The level descent of skiplist.go floor: like get, but the final
resting position itself (possibly the head sentinel) is returned. -/
def floorAux (sl : SkipList) (target : Int) : Nat → Option Nat → Option Nat
  | 0, pos => pos
  | lv + 1, pos =>
    let pos' := walkRight sl target lv (sl.arena.length + 1) pos
    match nextOf sl pos' lv with
    | some j =>
      if keyOf sl (some j) = target then some j else floorAux sl target lv pos'
    | none => floorAux sl target lv pos'

/-- skiplist.go floor: the position where the descent rests; none is
the head sentinel, never a nil pointer. -/
def floor (sl : SkipList) (target : Int) : Option Nat :=
  floorAux sl target (Level sl) none

/-- Go pointer identity between the node position returned by floor and
the link stored in head.nextNodes[0]: the sentinel position differs
from every arena node and from nil, two arena nodes agree exactly on
equal indices. -/
def posEqLink : Option Nat → Option Nat → Bool
  | some i, some j => i == j
  | _, _ => false

/-- skiplist.go Floor: reports the pair at the floor position unless
that position is pointer-identical with the first base-level node; when
the walk rested on the sentinel the reported pair carries the sentinel
zero key and zero value, exactly as the source does. -/
def Floor (sl : SkipList) (target : Int) : Option (Int × Int) :=
  if Level sl = 0 then none
  else
    let f := floor sl target
    if posEqLink f (nextOf sl none 0) then none
    else some (keyOf sl f, valOf sl f)

/-- The collection loop of skiplist.go Range: walk the base level from
the ceiling node while the key stays at or below the upper bound. -/
def rangeLoop (sl : SkipList) (endKey : Int) : Nat → Option Nat → List (Int × Int)
  | 0, _ => []
  | _ + 1, none => []
  | fuel + 1, some j =>
    if keyOf sl (some j) ≤ endKey then
      (keyOf sl (some j), valOf sl (some j)) :: rangeLoop sl endKey fuel (nextOf sl (some j) 0)
    else []

/-- skiplist.go Range: pairs with key in [start, endKey], collected
from the base level starting at the ceiling of start. -/
def Range (sl : SkipList) (start endKey : Int) : List (Int × Int) :=
  if Level sl = 0 then []
  else
    match ceil sl start with
    | none => []
    | some j => rangeLoop sl endKey (sl.arena.length + 1) (some j)

/-- The rightward walk of skiplist.go Put, which advances while the key
of the CURRENT node is below the inserted key (the source compares
head.key, not head.nextNodes[l].key). -/
def putWalk (sl : SkipList) (key : Int) (l : Nat) :
    Nat → Option Nat → Option Nat
  | 0, p => p
  | fuel + 1, p =>
    match nextOf sl p l with
    | none => p
    | some j =>
      if keyOf sl p < key then putWalk sl key l fuel (some j) else p

/-- The splice loop of skiplist.go Put: on every level from the top of
the head array down to 0, walk right, then link the new node (arena
slot nIdx) in after the resting position. The write into the new node
forward array faults (none) when the level is at or above the drawn
height. -/
def putLevels (key : Int) (nIdx : Nat) : Nat → Option Nat → SkipList → Option SkipList
  | 0, _, sl => some sl
  | lv + 1, pos, sl =>
    let pos' := putWalk sl key lv (sl.arena.length + 1) pos
    match setLink sl (some nIdx) lv (nextOf sl pos' lv) with
    | none => none
    | some sl1 =>
      match setLink sl1 pos' lv (some nIdx) with
      | none => none
      | some sl2 => putLevels key nIdx lv pos' sl2

/-- skiplist.go Put with the randLevel draw passed in as randL (the
generator always yields 0 ≤ randL ≤ maxLevel). An empty head array
short-circuits to a no-op; an existing key gets its value overwritten
in place; otherwise the head array grows to randL+1 levels if shorter,
a node of height randL+1 is appended to the arena and spliced in on
every level of the head array. -/
def Put (sl : SkipList) (randL : Nat) (key val : Int) : Option SkipList :=
  if Level sl = 0 then some sl
  else
    match get sl key with
    | some i => some { sl with arena := updVal sl.arena i val }
    | none =>
      let head1 : Node :=
        { sl.head with
          nextNodes := sl.head.nextNodes ++ List.replicate (randL + 1 - Level sl) none }
      let sl1 : SkipList := { sl with head := head1 }
      let nIdx := sl1.arena.length
      let sl2 : SkipList :=
        { sl1 with arena := sl1.arena ++ [{ key := key, val := val, nextNodes := List.replicate (randL + 1) none }] }
      putLevels key nIdx (Level sl2) none sl2

/-- The splice-out loop of skiplist.go Del: on every level walk right,
and when the next node key matches, bypass that node. -/
def delLevels (key : Int) : Nat → Option Nat → SkipList → Option SkipList
  | 0, _, sl => some sl
  | lv + 1, pos, sl =>
    let pos' := walkRight sl key lv (sl.arena.length + 1) pos
    match nextOf sl pos' lv with
    | some j =>
      if keyOf sl (some j) = key then
        match setLink sl pos' lv (nextOf sl (some j) lv) with
        | none => none
        | some sl1 => delLevels key lv pos' sl1
      else delLevels key lv pos' sl
    | none => delLevels key lv pos' sl

/-- The cut step of skiplist.go Del: drop the maximal run of trailing
nil links from the head forward array. -/
def cutLinks (ls : List (Option Nat)) : List (Option Nat) :=
  ((ls.reverse.dropWhile fun o => o.isNone).reverse)

/-- skiplist.go Del, guard polarity as in the source: the splice loop
and the cut run only when get found NOTHING; when the key exists Del
returns at once. -/
def Del (sl : SkipList) (key : Int) : Option SkipList :=
  if Level sl = 0 then some sl
  else
    match get sl key with
    | some _ => some sl
    | none =>
      match delLevels key (Level sl) none sl with
      | none => none
      | some sl1 =>
        some { sl1 with head := { sl1.head with nextNodes := cutLinks sl1.head.nextNodes } }

/-- One live node of a well-formed skip list, in canonical form: key,
value and height h (the number of levels occupied, at least 1). -/
structure Entry where
  key : Int
  val : Int
  h : Nat
deriving DecidableEq, Repr

/-- Relative index of the first entry of the list whose height exceeds
level l, i.e. the nearest node participating in that level. -/
def linkFrom : List Entry → Nat → Option Nat
  | [], _ => none
  | e :: t, l => if l < e.h then some 0 else (linkFrom t l).map (· + 1)

/-- Arena of a canonical skip list: node i carries, for each level below
its height, the index of the nearest later node occupying that level,
which is the §3 data-model invariant of the spec. The Nat argument is
the absolute index of the first entry of the list. -/
def buildArena : List Entry → Nat → List Node
  | [], _ => []
  | e :: t, i =>
    { key := e.key, val := e.val
      nextNodes := (List.range e.h).map fun l => (linkFrom t l).map (· + (i + 1)) }
      :: buildArena t (i + 1)

/-- The canonical well-formed skip list over a sorted entry list es,
with head forward array of length L. -/
def build (ml L : Nat) (es : List Entry) : SkipList :=
  { maxLevel := ml
    head := { key := 0, val := 0
              nextNodes := (List.range L).map fun l => linkFrom es l }
    arena := buildArena es 0 }

/-- Well-formedness of the canonical data: keys strictly ascending (so
also pairwise distinct) and every height between 1 and L. -/
def WF (L : Nat) (es : List Entry) : Prop :=
  List.Pairwise (fun a b => a.key < b.key) es ∧ ∀ e ∈ es, 0 < e.h ∧ e.h ≤ L

instance (L : Nat) (es : List Entry) : Decidable (WF L es) := by
  unfold WF; infer_instance

/-- Index of the first entry with key at or above t: the ceiling. -/
def firstGEIdx (t : Int) : List Entry → Option Nat
  | [] => none
  | e :: es => if t ≤ e.key then some 0 else (firstGEIdx t es).map (· + 1)

/-- Index of the first entry whose key equals k. -/
def keyIdx (k : Int) : List Entry → Option Nat
  | [] => none
  | e :: es => if e.key = k then some 0 else (keyIdx k es).map (· + 1)

/-- Keys reachable by the level-l forward chain from the head, with
fuel bounding the chase (cycles cannot arise in states the source
builds, and fuel above the arena size never runs out there). -/
def levelChain (sl : SkipList) (l : Nat) : Nat → Option Nat → List Int
  | 0, _ => []
  | fuel + 1, p =>
    match nextOf sl p l with
    | none => []
    | some j => keyOf sl (some j) :: levelChain sl l fuel (some j)

/-- The ordered key sequence of level l, read off the forward chain. -/
def levelKeys (sl : SkipList) (l : Nat) : List Int :=
  levelChain sl l (sl.arena.length + 1) none

/-- Boolean subsequence test. -/
def isSub : List Int → List Int → Bool
  | [], _ => true
  | _ :: _, [] => false
  | a :: as, b :: bs => if a = b then isSub as bs else isSub (a :: as) bs

/-- Boolean strict-ascent test. -/
def chainAsc : List Int → Bool
  | [] => true
  | [_] => true
  | a :: b :: t => decide (a < b) && chainAsc (b :: t)

/-- The leveled subsequence invariant of the spec, as a checkable
predicate on states: every level above the base reads off a
subsequence of the level below it, and the base level is strictly
ascending in key (which makes all live keys distinct, since every
level is a subsequence of the base). -/
def InvB (sl : SkipList) : Bool :=
  ((List.range (Level sl)).all fun l =>
    match l with
    | 0 => true
    | l' + 1 => isSub (levelKeys sl (l' + 1)) (levelKeys sl l'))
  && chainAsc (levelKeys sl 0)

theorem get?_drop' (l : List Entry) (n m : Nat) :
    (l.drop n).get? m = l.get? (n + m) := by
  induction n generalizing l with
  | zero => simp
  | succ n ih =>
    cases l with
    | nil => simp
    | cons a t =>
      simpa [List.drop_succ_cons, Nat.succ_add] using ih t

theorem buildArena_length (es : List Entry) (b : Nat) :
    (buildArena es b).length = es.length := by
  induction es generalizing b with
  | nil => rfl
  | cons e t ih => simp [buildArena, ih]

theorem buildArena_get? (es : List Entry) (b j : Nat) :
    (buildArena es b).get? j =
      (es.get? j).map fun e =>
        { key := e.key, val := e.val
          nextNodes := (List.range e.h).map fun l =>
            (linkFrom (es.drop (j + 1)) l).map (· + (b + j + 1)) } := by
  induction es generalizing b j with
  | nil => simp [buildArena]
  | cons e t ih =>
    cases j with
    | zero => simp [buildArena]
    | succ j' =>
      have hstep := ih (b + 1) j'
      simp only [buildArena, List.get?_cons_succ, List.drop_succ_cons]
      rw [show b + (j' + 1) + 1 = b + 1 + j' + 1 by omega]
      exact hstep

theorem Level_build (ml L : Nat) (es : List Entry) : Level (build ml L es) = L := by
  simp [Level, build]

theorem arena_build_get? (ml L : Nat) (es : List Entry) (j : Nat) :
    (build ml L es).arena.get? j =
      (es.get? j).map fun e =>
        { key := e.key, val := e.val
          nextNodes := (List.range e.h).map fun l =>
            (linkFrom (es.drop (j + 1)) l).map (· + (j + 1)) } := by
  show (buildArena es 0).get? j = _
  rw [buildArena_get?]
  simp

theorem nodeAt_build_head (ml L : Nat) (es : List Entry) :
    nodeAt (build ml L es) none =
      some { key := 0, val := 0, nextNodes := (List.range L).map fun l => linkFrom es l } :=
  rfl

theorem nodeAt_build_node (ml L : Nat) {es : List Entry} {j : Nat} {e : Entry}
    (hj : es.get? j = some e) :
    nodeAt (build ml L es) (some j) =
      some { key := e.key, val := e.val
             nextNodes := (List.range e.h).map fun l =>
               (linkFrom (es.drop (j + 1)) l).map (· + (j + 1)) } := by
  show (build ml L es).arena.get? j = _
  rw [arena_build_get?, hj]
  rfl

theorem nextOf_build_head (ml L : Nat) (es : List Entry) (l : Nat) :
    nextOf (build ml L es) none l = if l < L then linkFrom es l else none := by
  rw [nextOf, nodeAt_build_head, Option.some_bind]
  by_cases h : l < L
  · rw [if_pos h]
    show (((List.range L).map fun l => linkFrom es l).get? l).getD none = _
    rw [List.get?_map, List.get?_range h]
    rfl
  · rw [if_neg h]
    show (((List.range L).map fun l => linkFrom es l).get? l).getD none = _
    rw [List.get?_len_le (by simpa using Nat.le_of_not_lt h)]
    rfl

theorem nextOf_build_node (ml L : Nat) {es : List Entry} {j : Nat} {e : Entry}
    (hj : es.get? j = some e) (l : Nat) :
    nextOf (build ml L es) (some j) l =
      if l < e.h then (linkFrom (es.drop (j + 1)) l).map (· + (j + 1)) else none := by
  rw [nextOf, nodeAt_build_node ml L hj, Option.some_bind]
  by_cases h : l < e.h
  · rw [if_pos h]
    show ((((List.range e.h).map fun l => (linkFrom (es.drop (j + 1)) l).map (· + (j + 1))).get? l).getD none) = _
    rw [List.get?_map, List.get?_range h]
    rfl
  · rw [if_neg h]
    show ((((List.range e.h).map fun l => (linkFrom (es.drop (j + 1)) l).map (· + (j + 1))).get? l).getD none) = _
    rw [List.get?_len_le (by simpa using Nat.le_of_not_lt h)]
    rfl

theorem keyOf_build_node (ml L : Nat) {es : List Entry} {j : Nat} {e : Entry}
    (hj : es.get? j = some e) :
    keyOf (build ml L es) (some j) = e.key := by
  rw [keyOf, nodeAt_build_node ml L hj]
  rfl

theorem valOf_build_node (ml L : Nat) {es : List Entry} {j : Nat} {e : Entry}
    (hj : es.get? j = some e) :
    valOf (build ml L es) (some j) = e.val := by
  rw [valOf, nodeAt_build_node ml L hj]
  rfl

theorem arena_build_length (ml L : Nat) (es : List Entry) :
    (build ml L es).arena.length = es.length := by
  show (buildArena es 0).length = _
  exact buildArena_length es 0

theorem linkFrom_eq_none {es : List Entry} {l : Nat} :
    linkFrom es l = none ↔ ∀ x ∈ es, x.h ≤ l := by
  induction es with
  | nil => simp [linkFrom]
  | cons e t ih =>
    simp only [linkFrom, List.mem_cons]
    by_cases h : l < e.h
    · rw [if_pos h]
      constructor
      · intro hc; exact absurd hc (by simp)
      · intro hall
        exact absurd (hall e (Or.inl rfl)) (by omega)
    · rw [if_neg h]
      rw [Option.map_eq_none']
      rw [ih]
      constructor
      · intro hall x hx
        rcases hx with hx | hx
        · subst hx; omega
        · exact hall x hx
      · intro hall x hx
        exact hall x (Or.inr hx)

theorem linkFrom_eq_some {es : List Entry} {l : Nat} :
    ∀ {r : Nat}, linkFrom es l = some r →
      ∃ e, es.get? r = some e ∧ l < e.h ∧
        ∀ k x, k < r → es.get? k = some x → x.h ≤ l := by
  induction es with
  | nil => intro r h; simp [linkFrom] at h
  | cons e t ih =>
    intro r h
    simp only [linkFrom] at h
    by_cases hl : l < e.h
    · rw [if_pos hl] at h
      cases h
      exact ⟨e, rfl, hl, fun k x hk _ => absurd hk (Nat.not_lt_zero k)⟩
    · rw [if_neg hl] at h
      cases hmap : linkFrom t l with
      | none => rw [hmap] at h; cases h
      | some r' =>
        rw [hmap, Option.map_some'] at h
        cases h
        obtain ⟨e', hg, hh, hmin⟩ := ih hmap
        refine ⟨e', by simpa using hg, hh, ?_⟩
        intro k x hk hgk
        cases k with
        | zero =>
          cases hgk
          omega
        | succ k' =>
          exact hmin k' x (by omega) (by simpa using hgk)

theorem firstGEIdx_eq_none {t : Int} {es : List Entry} :
    firstGEIdx t es = none ↔ ∀ x ∈ es, x.key < t := by
  induction es with
  | nil => simp [firstGEIdx]
  | cons e tl ih =>
    simp only [firstGEIdx, List.mem_cons]
    by_cases h : t ≤ e.key
    · rw [if_pos h]
      constructor
      · intro hc; exact absurd hc (by simp)
      · intro hall; exact absurd (hall e (Or.inl rfl)) (by omega)
    · rw [if_neg h, Option.map_eq_none', ih]
      constructor
      · intro hall x hx
        rcases hx with hx | hx
        · subst hx; omega
        · exact hall x hx
      · intro hall x hx
        exact hall x (Or.inr hx)

theorem firstGEIdx_eq_some {t : Int} {es : List Entry} :
    ∀ {j : Nat}, firstGEIdx t es = some j →
      ∃ e, es.get? j = some e ∧ t ≤ e.key ∧
        ∀ k x, k < j → es.get? k = some x → x.key < t := by
  induction es with
  | nil => intro j h; simp [firstGEIdx] at h
  | cons e tl ih =>
    intro j h
    simp only [firstGEIdx] at h
    by_cases hl : t ≤ e.key
    · rw [if_pos hl] at h
      cases h
      exact ⟨e, rfl, hl, fun k x hk _ => absurd hk (Nat.not_lt_zero k)⟩
    · rw [if_neg hl] at h
      cases hmap : firstGEIdx t tl with
      | none => rw [hmap] at h; cases h
      | some j' =>
        rw [hmap, Option.map_some'] at h
        cases h
        obtain ⟨e', hg, hge, hmin⟩ := ih hmap
        refine ⟨e', by simpa using hg, hge, ?_⟩
        intro k x hk hgk
        cases k with
        | zero =>
          cases hgk
          omega
        | succ k' =>
          exact hmin k' x (by omega) (by simpa using hgk)

theorem firstGEIdx_of (t : Int) {es : List Entry} :
    ∀ {j : Nat} {e : Entry}, es.get? j = some e → t ≤ e.key →
      (∀ k x, k < j → es.get? k = some x → x.key < t) →
      firstGEIdx t es = some j := by
  induction es with
  | nil => intro j e hj _ _; simp at hj
  | cons a tl ih =>
    intro j e hj hge hmin
    cases j with
    | zero =>
      cases hj
      simp [firstGEIdx, hge]
    | succ j' =>
      have ha : a.key < t := hmin 0 a (Nat.succ_pos j') rfl
      simp only [firstGEIdx]
      rw [if_neg (by omega)]
      rw [ih (by simpa using hj) hge fun k x hk hgk =>
        hmin (k + 1) x (by omega) (by simpa using hgk)]
      rfl

theorem keyIdx_eq_none {k : Int} {es : List Entry} :
    keyIdx k es = none ↔ ∀ x ∈ es, x.key ≠ k := by
  induction es with
  | nil => simp [keyIdx]
  | cons e tl ih =>
    simp only [keyIdx, List.mem_cons]
    by_cases h : e.key = k
    · rw [if_pos h]
      constructor
      · intro hc; exact absurd hc (by simp)
      · intro hall; exact absurd h (hall e (Or.inl rfl))
    · rw [if_neg h, Option.map_eq_none', ih]
      constructor
      · intro hall x hx
        rcases hx with hx | hx
        · subst hx; exact h
        · exact hall x hx
      · intro hall x hx
        exact hall x (Or.inr hx)

theorem keyIdx_eq_some {k : Int} {es : List Entry} :
    ∀ {m : Nat}, keyIdx k es = some m →
      ∃ e, es.get? m = some e ∧ e.key = k := by
  induction es with
  | nil => intro m h; simp [keyIdx] at h
  | cons e tl ih =>
    intro m h
    simp only [keyIdx] at h
    by_cases hl : e.key = k
    · rw [if_pos hl] at h
      cases h
      exact ⟨e, rfl, hl⟩
    · rw [if_neg hl] at h
      cases hmap : keyIdx k tl with
      | none => rw [hmap] at h; cases h
      | some m' =>
        rw [hmap, Option.map_some'] at h
        cases h
        obtain ⟨e', hg, hk⟩ := ih hmap
        exact ⟨e', by simpa using hg, hk⟩

theorem keyIdx_of (k : Int) {es : List Entry} :
    ∀ {j : Nat} {e : Entry}, es.get? j = some e → e.key = k →
      (∀ m x, m < j → es.get? m = some x → x.key ≠ k) →
      keyIdx k es = some j := by
  induction es with
  | nil => intro j e hj _ _; simp at hj
  | cons a tl ih =>
    intro j e hj hke hmin
    cases j with
    | zero =>
      cases hj
      simp [keyIdx, hke]
    | succ j' =>
      have ha : a.key ≠ k := hmin 0 a (Nat.succ_pos j') rfl
      simp only [keyIdx]
      rw [if_neg ha]
      rw [ih (by simpa using hj) hke fun m x hm hgm =>
        hmin (m + 1) x (by omega) (by simpa using hgm)]
      rfl

theorem sorted_get_lt {es : List Entry}
    (hs : List.Pairwise (fun a b => a.key < b.key) es) {i j : Nat} {a b : Entry}
    (hij : i < j) (ha : es.get? i = some a) (hb : es.get? j = some b) :
    a.key < b.key := by
  rw [List.pairwise_iff_get] at hs
  obtain ⟨hi, ha'⟩ := List.get?_eq_some.mp ha
  obtain ⟨hj, hb'⟩ := List.get?_eq_some.mp hb
  have hlt := hs ⟨i, hi⟩ ⟨j, hj⟩ hij
  rw [ha', hb'] at hlt
  exact hlt

/-- Numeric rank of a position, for fuel accounting: the head sentinel
is 0 and arena slot i is i+1 (every forward step strictly increases it). -/
def posN : Option Nat → Nat
  | none => 0
  | some i => i + 1

@[simp] theorem posN_none : posN none = 0 := rfl

@[simp] theorem posN_some (i : Nat) : posN (some i) = i + 1 := rfl

/-- A search position is sound for target t at level l: either the head
sentinel, or a live node that occupies level l and whose key is below t. -/
def PosOkAt (es : List Entry) (t : Int) (l : Nat) (pos : Option Nat) : Prop :=
  ∀ i, pos = some i → ∃ e, es.get? i = some e ∧ l < e.h ∧ e.key < t

/-- The rightward walk has stopped: whatever node follows the position
on level l has key at or above the target. -/
def StoppedAt (ml L : Nat) (es : List Entry) (t : Int) (l : Nat) (pos : Option Nat) : Prop :=
  ∀ j, nextOf (build ml L es) pos l = some j →
    ∃ e, es.get? j = some e ∧ t ≤ e.key ∧ l < e.h

theorem nextOf_build_some_elim {ml L : Nat} {es : List Entry} {t : Int} {l : Nat}
    {pos : Option Nat} {j : Nat}
    (hpos : PosOkAt es t l pos) (hl : l < L)
    (hnext : nextOf (build ml L es) pos l = some j) :
    ∃ e, es.get? j = some e ∧ l < e.h ∧ posN pos ≤ j := by
  cases pos with
  | none =>
    rw [nextOf_build_head, if_pos hl] at hnext
    obtain ⟨e, hg, hh, _⟩ := linkFrom_eq_some hnext
    exact ⟨e, hg, hh, Nat.zero_le j⟩
  | some i =>
    obtain ⟨ei, hgi, hhi, _⟩ := hpos i rfl
    rw [nextOf_build_node ml L hgi, if_pos hhi] at hnext
    cases hmap : linkFrom (es.drop (i + 1)) l with
    | none => rw [hmap] at hnext; cases hnext
    | some r =>
      rw [hmap, Option.map_some'] at hnext
      cases hnext
      obtain ⟨e, hg, hh, _⟩ := linkFrom_eq_some hmap
      rw [get?_drop'] at hg
      refine ⟨e, ?_, hh, by simp⟩
      rw [show r + (i + 1) = i + 1 + r by omega]
      exact hg

theorem walkRight_build {ml L : Nat} {es : List Entry} {t : Int} {l : Nat} (hl : l < L) :
    ∀ (fuel : Nat) (pos : Option Nat), PosOkAt es t l pos →
      es.length + 1 ≤ fuel + posN pos →
      PosOkAt es t l (walkRight (build ml L es) t l fuel pos) ∧
      posN pos ≤ posN (walkRight (build ml L es) t l fuel pos) ∧
      StoppedAt ml L es t l (walkRight (build ml L es) t l fuel pos) := by
  intro fuel
  induction fuel with
  | zero =>
    intro pos hpos hfuel
    exfalso
    cases pos with
    | none => simp at hfuel
    | some i =>
      obtain ⟨e, hg, _, _⟩ := hpos i rfl
      have hi : i < es.length := (List.get?_eq_some.mp hg).1
      simp at hfuel
      omega
  | succ fuel ih =>
    intro pos hpos hfuel
    cases hnext : nextOf (build ml L es) pos l with
    | none =>
      have hred : walkRight (build ml L es) t l (fuel + 1) pos = pos := by
        rw [walkRight, hnext]
      rw [hred]
      refine ⟨hpos, le_refl _, ?_⟩
      intro j hj
      rw [hnext] at hj
      cases hj
    | some j =>
      obtain ⟨ej, hgj, hhj, hjge⟩ := nextOf_build_some_elim hpos hl hnext
      have hred : walkRight (build ml L es) t l (fuel + 1) pos =
          if keyOf (build ml L es) (some j) < t then
            walkRight (build ml L es) t l fuel (some j)
          else pos := by
        rw [walkRight, hnext]
      rw [hred]
      by_cases hkey : keyOf (build ml L es) (some j) < t
      · rw [if_pos hkey]
        have hkeyj : ej.key < t := by rwa [keyOf_build_node ml L hgj] at hkey
        have hposj : PosOkAt es t l (some j) := by
          intro i hi
          cases hi
          exact ⟨ej, hgj, hhj, hkeyj⟩
        have hfuel' : es.length + 1 ≤ fuel + posN (some j) := by
          simp
          omega
        obtain ⟨h1, h2, h3⟩ := ih (some j) hposj hfuel'
        refine ⟨h1, le_trans ?_ h2, h3⟩
        simp
        omega
      · rw [if_neg hkey]
        refine ⟨hpos, le_refl _, ?_⟩
        intro j' hj'
        rw [hnext] at hj'
        cases hj'
        exact ⟨ej, hgj, le_of_not_lt (by rwa [keyOf_build_node ml L hgj] at hkey), hhj⟩

theorem PosOkAt_weaken {es : List Entry} {t : Int} {l : Nat} {pos : Option Nat}
    (h : PosOkAt es t (l + 1) pos) : PosOkAt es t l pos := by
  intro i hi
  obtain ⟨e, hg, hhp, hk⟩ := h i hi
  exact ⟨e, hg, by omega, hk⟩

theorem nextOf_level0_eq_firstGE {ml L : Nat} {es : List Entry} {t : Int}
    (hs : List.Pairwise (fun a b => a.key < b.key) es)
    (hh : ∀ e ∈ es, 0 < e.h ∧ e.h ≤ L) (hL : 0 < L)
    {pos : Option Nat} (hpos : PosOkAt es t 0 pos)
    (hstop : StoppedAt ml L es t 0 pos) :
    nextOf (build ml L es) pos 0 = firstGEIdx t es := by
  cases hnext : nextOf (build ml L es) pos 0 with
  | none =>
    symm
    rw [firstGEIdx_eq_none]
    intro x hx
    obtain ⟨m, hm⟩ := List.get?_of_mem hx
    cases pos with
    | none =>
      rw [nextOf_build_head, if_pos hL] at hnext
      have hall := linkFrom_eq_none.mp hnext x hx
      have hx1 := (hh x hx).1
      omega
    | some i =>
      obtain ⟨ei, hgi, hhi, hki⟩ := hpos i rfl
      rw [nextOf_build_node ml L hgi, if_pos hhi] at hnext
      have hlf : linkFrom (es.drop (i + 1)) 0 = none := Option.map_eq_none'.mp hnext
      have hdropnil : es.drop (i + 1) = [] := by
        cases hd : es.drop (i + 1) with
        | nil => rfl
        | cons a tldrop =>
          have hmema : a ∈ es.drop (i + 1) := by
            rw [hd]; exact List.mem_cons_self a tldrop
          have h1 := (hh a (List.mem_of_mem_drop hmema)).1
          have h2 := linkFrom_eq_none.mp hlf a hmema
          omega
      have hlen : es.length ≤ i + 1 := List.drop_eq_nil_iff.mp hdropnil
      have hmlen : m < es.length := (List.get?_eq_some.mp hm).1
      rcases Nat.lt_or_ge m i with h | h
      · have := sorted_get_lt hs h hm hgi
        omega
      · have hmi : m = i := by omega
        subst hmi
        rw [hm] at hgi
        cases hgi
        exact hki
  | some j =>
    obtain ⟨ej, hgj, hgejt, _⟩ := hstop j hnext
    symm
    apply firstGEIdx_of t hgj hgejt
    intro k x hk hgk
    cases pos with
    | none =>
      rw [nextOf_build_head, if_pos hL] at hnext
      obtain ⟨e0, hg0, hh0, hmin0⟩ := linkFrom_eq_some hnext
      have h1 := hmin0 k x hk hgk
      have h2 := (hh x (List.get?_mem hgk)).1
      omega
    | some i =>
      obtain ⟨ei, hgi, hhi, hki⟩ := hpos i rfl
      rw [nextOf_build_node ml L hgi, if_pos hhi] at hnext
      cases hmap : linkFrom (es.drop (i + 1)) 0 with
      | none => rw [hmap] at hnext; cases hnext
      | some r =>
        rw [hmap, Option.map_some'] at hnext
        cases hnext
        obtain ⟨e', hg', hh', hmin'⟩ := linkFrom_eq_some hmap
        rcases Nat.lt_or_ge k (i + 1) with hk' | hk'
        · rcases Nat.lt_or_ge k i with hk'' | hk''
          · have := sorted_get_lt hs hk'' hgk hgi
            omega
          · have hki' : k = i := by omega
            subst hki'
            rw [hgk] at hgi
            cases hgi
            exact hki
        · have hklt : k - (i + 1) < r := by omega
          have hgk' : (es.drop (i + 1)).get? (k - (i + 1)) = some x := by
            rw [get?_drop', show i + 1 + (k - (i + 1)) = k by omega]
            exact hgk
          have h1 := hmin' (k - (i + 1)) x hklt hgk'
          have h2 := (hh x (List.get?_mem hgk)).1
          omega

theorem keyIdx_of_firstGE_none {t : Int} {es : List Entry}
    (h : firstGEIdx t es = none) : keyIdx t es = none := by
  rw [keyIdx_eq_none]
  intro x hx
  have := firstGEIdx_eq_none.mp h x hx
  omega

theorem keyIdx_of_firstGE_eq {t : Int} {es : List Entry} {j : Nat} {e : Entry}
    (h : firstGEIdx t es = some j) (hg : es.get? j = some e) (hk : e.key = t) :
    keyIdx t es = some j := by
  obtain ⟨e', hg', _, hmin⟩ := firstGEIdx_eq_some h
  apply keyIdx_of t hg hk
  intro m x hm hgm
  have := hmin m x hm hgm
  omega

theorem keyIdx_of_firstGE_ne {t : Int} {es : List Entry} {j : Nat} {e : Entry}
    (hs : List.Pairwise (fun a b => a.key < b.key) es)
    (h : firstGEIdx t es = some j) (hg : es.get? j = some e) (hk : e.key ≠ t) :
    keyIdx t es = none := by
  obtain ⟨e', hg', hge', hmin⟩ := firstGEIdx_eq_some h
  rw [hg] at hg'
  cases hg'
  rw [keyIdx_eq_none]
  intro x hx
  obtain ⟨m, hm⟩ := List.get?_of_mem hx
  rcases Nat.lt_or_ge m j with hmj | hmj
  · have := hmin m x hmj hm
    omega
  · rcases Nat.eq_or_lt_of_le hmj with hmj' | hmj'
    · subst hmj'
      rw [hm] at hg
      cases hg
      exact hk
    · have := sorted_get_lt hs hmj' hg hm
      omega

theorem ceilAux_build {ml L : Nat} {es : List Entry} {t : Int}
    (hs : List.Pairwise (fun a b => a.key < b.key) es)
    (hh : ∀ e ∈ es, 0 < e.h ∧ e.h ≤ L) :
    ∀ lv, lv + 1 ≤ L → ∀ pos, PosOkAt es t lv pos →
      ceilAux (build ml L es) t (lv + 1) pos = firstGEIdx t es := by
  intro lv
  induction lv with
  | zero =>
    intro hL pos hpos
    have hfuel : es.length + 1 ≤ (build ml L es).arena.length + 1 + posN pos := by
      rw [arena_build_length]; omega
    obtain ⟨hpos', _, hstop'⟩ :=
      walkRight_build (by omega : (0 : Nat) < L)
        ((build ml L es).arena.length + 1) pos hpos hfuel
    have h0 := @nextOf_level0_eq_firstGE ml L es t hs hh (by omega) _ hpos' hstop'
    cases hnext : nextOf (build ml L es)
        (walkRight (build ml L es) t 0 ((build ml L es).arena.length + 1) pos) 0 with
    | none =>
      have hred : ceilAux (build ml L es) t (0 + 1) pos =
          ceilAux (build ml L es) t 0
            (walkRight (build ml L es) t 0 ((build ml L es).arena.length + 1) pos) := by
        conv_lhs => rw [ceilAux]
        rw [hnext]
      rw [hred, ceilAux]
      exact h0
    | some j =>
      by_cases hkey : keyOf (build ml L es) (some j) = t
      · have hred : ceilAux (build ml L es) t (0 + 1) pos = some j := by
          conv_lhs => rw [ceilAux]
          simp only [hnext]
          rw [if_pos hkey]
        rw [hred, ← h0, hnext]
      · have hred : ceilAux (build ml L es) t (0 + 1) pos =
            ceilAux (build ml L es) t 0
              (walkRight (build ml L es) t 0 ((build ml L es).arena.length + 1) pos) := by
          conv_lhs => rw [ceilAux]
          simp only [hnext]
          rw [if_neg hkey]
        rw [hred, ceilAux]
        exact h0
  | succ lv ih =>
    intro hL pos hpos
    have hfuel : es.length + 1 ≤ (build ml L es).arena.length + 1 + posN pos := by
      rw [arena_build_length]; omega
    obtain ⟨hpos', _, hstop'⟩ :=
      walkRight_build (by omega : lv + 1 < L)
        ((build ml L es).arena.length + 1) pos hpos hfuel
    cases hnext : nextOf (build ml L es)
        (walkRight (build ml L es) t (lv + 1) ((build ml L es).arena.length + 1) pos)
        (lv + 1) with
    | none =>
      have hred : ceilAux (build ml L es) t (lv + 1 + 1) pos =
          ceilAux (build ml L es) t (lv + 1)
            (walkRight (build ml L es) t (lv + 1) ((build ml L es).arena.length + 1) pos) := by
        conv_lhs => rw [ceilAux]
        rw [hnext]
      rw [hred]
      exact ih (by omega) _ (PosOkAt_weaken hpos')
    | some j =>
      by_cases hkey : keyOf (build ml L es) (some j) = t
      · have hred : ceilAux (build ml L es) t (lv + 1 + 1) pos = some j := by
          conv_lhs => rw [ceilAux]
          simp only [hnext]
          rw [if_pos hkey]
        rw [hred]
        obtain ⟨ej, hgj, hget, _⟩ := hstop' j hnext
        rw [keyOf_build_node ml L hgj] at hkey
        symm
        apply firstGEIdx_of t hgj (by omega)
        intro k x hk hgk
        have := sorted_get_lt hs hk hgk hgj
        omega
      · have hred : ceilAux (build ml L es) t (lv + 1 + 1) pos =
            ceilAux (build ml L es) t (lv + 1)
              (walkRight (build ml L es) t (lv + 1) ((build ml L es).arena.length + 1) pos) := by
          conv_lhs => rw [ceilAux]
          simp only [hnext]
          rw [if_neg hkey]
        rw [hred]
        exact ih (by omega) _ (PosOkAt_weaken hpos')

theorem getAux_build {ml L : Nat} {es : List Entry} {k : Int}
    (hs : List.Pairwise (fun a b => a.key < b.key) es)
    (hh : ∀ e ∈ es, 0 < e.h ∧ e.h ≤ L) :
    ∀ lv, lv + 1 ≤ L → ∀ pos, PosOkAt es k lv pos →
      getAux (build ml L es) k (lv + 1) pos = keyIdx k es := by
  intro lv
  induction lv with
  | zero =>
    intro hL pos hpos
    have hfuel : es.length + 1 ≤ (build ml L es).arena.length + 1 + posN pos := by
      rw [arena_build_length]; omega
    obtain ⟨hpos', _, hstop'⟩ :=
      walkRight_build (by omega : (0 : Nat) < L)
        ((build ml L es).arena.length + 1) pos hpos hfuel
    have h0 := @nextOf_level0_eq_firstGE ml L es k hs hh (by omega) _ hpos' hstop'
    cases hnext : nextOf (build ml L es)
        (walkRight (build ml L es) k 0 ((build ml L es).arena.length + 1) pos) 0 with
    | none =>
      have hred : getAux (build ml L es) k (0 + 1) pos =
          getAux (build ml L es) k 0
            (walkRight (build ml L es) k 0 ((build ml L es).arena.length + 1) pos) := by
        conv_lhs => rw [getAux]
        rw [hnext]
      rw [hred, getAux]
      rw [hnext] at h0
      exact (keyIdx_of_firstGE_none h0.symm).symm
    | some j =>
      rw [hnext] at h0
      obtain ⟨ej, hgj, _, _⟩ := hstop' j hnext
      by_cases hkey : keyOf (build ml L es) (some j) = k
      · have hred : getAux (build ml L es) k (0 + 1) pos = some j := by
          conv_lhs => rw [getAux]
          simp only [hnext]
          rw [if_pos hkey]
        rw [hred]
        rw [keyOf_build_node ml L hgj] at hkey
        exact (keyIdx_of_firstGE_eq h0.symm hgj hkey).symm
      · have hred : getAux (build ml L es) k (0 + 1) pos =
            getAux (build ml L es) k 0
              (walkRight (build ml L es) k 0 ((build ml L es).arena.length + 1) pos) := by
          conv_lhs => rw [getAux]
          simp only [hnext]
          rw [if_neg hkey]
        rw [hred, getAux]
        rw [keyOf_build_node ml L hgj] at hkey
        exact (keyIdx_of_firstGE_ne hs h0.symm hgj hkey).symm
  | succ lv ih =>
    intro hL pos hpos
    have hfuel : es.length + 1 ≤ (build ml L es).arena.length + 1 + posN pos := by
      rw [arena_build_length]; omega
    obtain ⟨hpos', _, hstop'⟩ :=
      walkRight_build (by omega : lv + 1 < L)
        ((build ml L es).arena.length + 1) pos hpos hfuel
    cases hnext : nextOf (build ml L es)
        (walkRight (build ml L es) k (lv + 1) ((build ml L es).arena.length + 1) pos)
        (lv + 1) with
    | none =>
      have hred : getAux (build ml L es) k (lv + 1 + 1) pos =
          getAux (build ml L es) k (lv + 1)
            (walkRight (build ml L es) k (lv + 1) ((build ml L es).arena.length + 1) pos) := by
        conv_lhs => rw [getAux]
        rw [hnext]
      rw [hred]
      exact ih (by omega) _ (PosOkAt_weaken hpos')
    | some j =>
      by_cases hkey : keyOf (build ml L es) (some j) = k
      · have hred : getAux (build ml L es) k (lv + 1 + 1) pos = some j := by
          conv_lhs => rw [getAux]
          simp only [hnext]
          rw [if_pos hkey]
        rw [hred]
        obtain ⟨ej, hgj, hget, _⟩ := hstop' j hnext
        rw [keyOf_build_node ml L hgj] at hkey
        symm
        apply keyIdx_of k hgj hkey
        intro m x hm hgm
        have := sorted_get_lt hs hm hgm hgj
        omega
      · have hred : getAux (build ml L es) k (lv + 1 + 1) pos =
            getAux (build ml L es) k (lv + 1)
              (walkRight (build ml L es) k (lv + 1) ((build ml L es).arena.length + 1) pos) := by
          conv_lhs => rw [getAux]
          simp only [hnext]
          rw [if_neg hkey]
        rw [hred]
        exact ih (by omega) _ (PosOkAt_weaken hpos')

theorem es_nil_of_level_zero {L : Nat} {es : List Entry}
    (hh : ∀ e ∈ es, 0 < e.h ∧ e.h ≤ L) (hL : L = 0) : es = [] := by
  cases es with
  | nil => rfl
  | cons a tl =>
    have h1 := (hh a (by simp)).1
    have h2 := (hh a (by simp)).2
    omega

theorem ceil_build_eq {ml L : Nat} {es : List Entry} {t : Int}
    (hs : List.Pairwise (fun a b => a.key < b.key) es)
    (hh : ∀ e ∈ es, 0 < e.h ∧ e.h ≤ L) :
    ceil (build ml L es) t = firstGEIdx t es := by
  rw [ceil, Level_build]
  by_cases hL : L = 0
  · rw [if_pos hL, es_nil_of_level_zero hh hL]
    rfl
  · rw [if_neg hL]
    obtain ⟨L', rfl⟩ : ∃ L', L = L' + 1 := ⟨L - 1, by omega⟩
    exact ceilAux_build hs hh L' (le_refl _) none fun i hi => nomatch hi

theorem get_build_eq {ml L : Nat} {es : List Entry} {k : Int}
    (hs : List.Pairwise (fun a b => a.key < b.key) es)
    (hh : ∀ e ∈ es, 0 < e.h ∧ e.h ≤ L) :
    get (build ml L es) k = keyIdx k es := by
  rw [get, Level_build]
  by_cases hL : L = 0
  · rw [if_pos hL, es_nil_of_level_zero hh hL]
    rfl
  · rw [if_neg hL]
    obtain ⟨L', rfl⟩ : ∃ L', L = L' + 1 := ⟨L - 1, by omega⟩
    exact getAux_build hs hh L' (le_refl _) none fun i hi => nomatch hi

/-- Claim C7: Ceil(target) returns the pair with the smallest stored
key at or above the target together with found, and reports not-found
exactly when every stored key is below the target. Proved for every
well-formed container state (strictly ascending keys, every node height
between 1 and the head array length), which is every state the data
model of the spec admits. -/
theorem C7_ceil_correct {ml L : Nat} {es : List Entry} {t : Int}
    (hs : List.Pairwise (fun a b => a.key < b.key) es)
    (hh : ∀ e ∈ es, 0 < e.h ∧ e.h ≤ L) :
    (∀ k v, Ceil (build ml L es) t = some (k, v) →
      (∃ e ∈ es, e.key = k ∧ e.val = v) ∧ t ≤ k ∧
        ∀ x ∈ es, t ≤ x.key → k ≤ x.key) ∧
    (Ceil (build ml L es) t = none → ∀ x ∈ es, x.key < t) ∧
    ((∀ x ∈ es, x.key < t) → Ceil (build ml L es) t = none) := by
  have hceil := @ceil_build_eq ml L es t hs hh
  have hmain : ∀ k v, Ceil (build ml L es) t = some (k, v) →
      (∃ e ∈ es, e.key = k ∧ e.val = v) ∧ t ≤ k ∧
        ∀ x ∈ es, t ≤ x.key → k ≤ x.key := by
    intro k v hkv
    rw [Ceil] at hkv
    by_cases hL : Level (build ml L es) = 0
    · rw [if_pos hL] at hkv
      cases hkv
    · rw [if_neg hL] at hkv
      cases hc : ceil (build ml L es) t with
      | none =>
        rw [hc] at hkv
        cases hkv
      | some j =>
        simp only [hc] at hkv
        rw [hc] at hceil
        obtain ⟨e, hg, hge, hmin⟩ := firstGEIdx_eq_some hceil.symm
        rw [keyOf_build_node ml L hg, valOf_build_node ml L hg] at hkv
        obtain ⟨hk, hv⟩ := Prod.mk.injEq .. ▸ Option.some.injEq .. ▸ hkv
        refine ⟨⟨e, List.get?_mem hg, hk, hv⟩, by omega, ?_⟩
        intro x hx hgex
        obtain ⟨m, hm⟩ := List.get?_of_mem hx
        rcases Nat.lt_trichotomy m j with hmj | hmj | hmj
        · have := hmin m x hmj hm
          omega
        · subst hmj
          rw [hm] at hg
          cases hg
          omega
        · have := sorted_get_lt hs hmj hg hm
          omega
  refine ⟨hmain, ?_, ?_⟩
  · intro hnone x hx
    rw [Ceil] at hnone
    by_cases hL : Level (build ml L es) = 0
    · have hnil : es = [] := by
        rw [Level_build] at hL
        exact es_nil_of_level_zero hh hL
      subst hnil
      cases hx
    · rw [if_neg hL] at hnone
      cases hc : ceil (build ml L es) t with
      | none =>
        rw [hc] at hceil
        exact firstGEIdx_eq_none.mp hceil.symm x hx
      | some j =>
        rw [hc] at hnone
        cases hnone
  · intro hall
    cases hkv : Ceil (build ml L es) t with
    | none => rfl
    | some p =>
      obtain ⟨⟨e, hmem, hk, _⟩, hge, _⟩ := hmain p.1 p.2 (by rw [hkv])
      have := hall e hmem
      omega

theorem linkFrom_zero_cons {a : Entry} {tl : List Entry} (h : 0 < a.h) :
    linkFrom (a :: tl) 0 = some 0 := by
  simp [linkFrom, h]

theorem nextOf_build_base {ml L : Nat} {es : List Entry}
    (hh : ∀ x ∈ es, 0 < x.h ∧ x.h ≤ L) {j : Nat} {ej : Entry}
    (hj : es.get? j = some ej) :
    nextOf (build ml L es) (some j) 0 =
      if j + 1 < es.length then some (j + 1) else none := by
  have h0 : 0 < ej.h := (hh ej (List.get?_mem hj)).1
  rw [nextOf_build_node ml L hj, if_pos h0]
  cases hd : es.drop (j + 1) with
  | nil =>
    have hlen : es.length ≤ j + 1 := List.drop_eq_nil_iff.mp hd
    rw [if_neg (by omega)]
    rfl
  | cons a tl =>
    have hmema : a ∈ es := List.mem_of_mem_drop (by rw [hd]; exact List.mem_cons_self a tl)
    have hlen : ¬ es.length ≤ j + 1 := by
      intro hle
      rw [List.drop_eq_nil_of_le hle] at hd
      cases hd
    rw [if_pos (by omega), linkFrom_zero_cons (hh a hmema).1, Option.map_some']
    simp

theorem rangeLoop_nil (sl : SkipList) (e : Int) (fuel : Nat) :
    rangeLoop sl e fuel none = [] := by
  cases fuel <;> rfl

theorem rangeLoop_build {ml L : Nat} {es : List Entry} {e : Int}
    (hh : ∀ x ∈ es, 0 < x.h ∧ x.h ≤ L) :
    ∀ (fuel j : Nat) (ej : Entry), es.get? j = some ej → es.length ≤ fuel + j →
      rangeLoop (build ml L es) e fuel (some j) =
        ((es.drop j).takeWhile fun x => decide (x.key ≤ e)).map fun x => (x.key, x.val) := by
  intro fuel
  induction fuel with
  | zero =>
    intro j ej hj hlen
    have := (List.get?_eq_some.mp hj).1
    omega
  | succ fuel ih =>
    intro j ej hj hlen
    obtain ⟨hlt, hget⟩ := List.get?_eq_some.mp hj
    have hdrop : es.drop j = ej :: es.drop (j + 1) := by
      rw [List.drop_eq_get_cons hlt, hget]
    rw [hdrop]
    by_cases hle : ej.key ≤ e
    · have hbool : keyOf (build ml L es) (some j) ≤ e := by
        rw [keyOf_build_node ml L hj]
        exact hle
      have hred : rangeLoop (build ml L es) e (fuel + 1) (some j) =
          (keyOf (build ml L es) (some j), valOf (build ml L es) (some j)) ::
            rangeLoop (build ml L es) e fuel (nextOf (build ml L es) (some j) 0) := by
        rw [rangeLoop, if_pos hbool]
      rw [hred, keyOf_build_node ml L hj, valOf_build_node ml L hj,
        nextOf_build_base hh hj]
      rw [List.takeWhile_cons_of_pos (by simpa using hle), List.map_cons]
      congr 1
      by_cases hlen1 : j + 1 < es.length
      · rw [if_pos hlen1]
        cases hj1 : es.get? (j + 1) with
        | none =>
          have := List.get?_eq_none.mp hj1
          omega
        | some ej1 =>
          exact ih (j + 1) ej1 hj1 (by omega)
      · rw [if_neg hlen1, rangeLoop_nil]
        rw [List.drop_eq_nil_of_le (by omega)]
        rfl
    · have hbool : ¬ keyOf (build ml L es) (some j) ≤ e := by
        rw [keyOf_build_node ml L hj]
        exact hle
      have hred : rangeLoop (build ml L es) e (fuel + 1) (some j) = [] := by
        rw [rangeLoop, if_neg hbool]
      rw [hred, List.takeWhile_cons_of_neg (by simpa using hle)]
      rfl

theorem filter_le_eq_takeWhile {e : Int} :
    ∀ es : List Entry, List.Pairwise (fun a b => a.key < b.key) es →
      (es.filter fun x => decide (x.key ≤ e)) =
        es.takeWhile fun x => decide (x.key ≤ e) := by
  intro es
  induction es with
  | nil => intro _; rfl
  | cons a tl ih =>
    intro hp
    by_cases ha : a.key ≤ e
    · rw [List.filter_cons_of_pos (by simpa using ha),
        List.takeWhile_cons_of_pos (by simpa using ha), ih hp.of_cons]
    · rw [List.filter_cons_of_neg (by simpa using ha),
        List.takeWhile_cons_of_neg (by simpa using ha)]
      rw [List.filter_eq_nil_iff]
      intro x hx
      have := (List.pairwise_cons.mp hp).1 x hx
      simp
      omega

theorem filter_between_eq_takeWhile_drop {s e : Int} :
    ∀ es : List Entry, List.Pairwise (fun a b => a.key < b.key) es →
      ∀ j : Nat, (∀ k x, k < j → es.get? k = some x → x.key < s) →
        (∀ k x, j ≤ k → es.get? k = some x → s ≤ x.key) →
        (es.filter fun x => decide (s ≤ x.key) && decide (x.key ≤ e)) =
          (es.drop j).takeWhile fun x => decide (x.key ≤ e) := by
  intro es
  induction es with
  | nil => intro _ j _ _; simp
  | cons a tl ih =>
    intro hp j hpre hpost
    cases j with
    | zero =>
      rw [List.drop_zero]
      have hall : ∀ x ∈ a :: tl, s ≤ x.key := by
        intro x hx
        obtain ⟨m, hm⟩ := List.get?_of_mem hx
        exact hpost m x (Nat.zero_le m) hm
      have hcong : ((a :: tl).filter fun x => decide (s ≤ x.key) && decide (x.key ≤ e)) =
          (a :: tl).filter fun x => decide (x.key ≤ e) :=
        List.filter_congr fun x hx => by
          have := hall x hx
          simp [this]
      rw [hcong]
      exact filter_le_eq_takeWhile (a :: tl) hp
    | succ j' =>
      have ha : a.key < s := hpre 0 a (Nat.succ_pos j') rfl
      rw [List.filter_cons_of_neg (by simp; omega), List.drop_succ_cons]
      exact ih hp.of_cons j'
        (fun k x hk hgk => hpre (k + 1) x (by omega) (by simpa using hgk))
        (fun k x hk hgk => hpost (k + 1) x (by omega) (by simpa using hgk))

theorem Range_build_eq {ml L : Nat} {es : List Entry} {s e : Int}
    (hs : List.Pairwise (fun a b => a.key < b.key) es)
    (hh : ∀ x ∈ es, 0 < x.h ∧ x.h ≤ L) :
    Range (build ml L es) s e =
      (es.filter fun x => decide (s ≤ x.key) && decide (x.key ≤ e)).map
        fun x => (x.key, x.val) := by
  rw [Range]
  by_cases hL : Level (build ml L es) = 0
  · rw [if_pos hL]
    rw [Level_build] at hL
    rw [es_nil_of_level_zero hh hL]
    rfl
  · rw [if_neg hL]
    have hceil := @ceil_build_eq ml L es s hs hh
    cases hc : ceil (build ml L es) s with
    | none =>
      simp only [hc]
      rw [hc] at hceil
      have hnil : (es.filter fun x => decide (s ≤ x.key) && decide (x.key ≤ e)) = [] := by
        rw [List.filter_eq_nil_iff]
        intro x hx
        have := firstGEIdx_eq_none.mp hceil.symm x hx
        simp
        omega
      rw [hnil]
      rfl
    | some j =>
      simp only [hc]
      rw [hc] at hceil
      obtain ⟨ej, hgj, hge, hmin⟩ := firstGEIdx_eq_some hceil.symm
      rw [rangeLoop_build hh ((build ml L es).arena.length + 1) j ej hgj
        (by rw [arena_build_length]; omega)]
      have hpost : ∀ k x, j ≤ k → es.get? k = some x → s ≤ x.key := by
        intro k x hk hgk
        rcases Nat.eq_or_lt_of_le hk with h | h
        · subst h
          rw [hgj] at hgk
          cases hgk
          exact hge
        · have := sorted_get_lt hs h hgj hgk
          omega
      rw [filter_between_eq_takeWhile_drop es hs j hmin hpost]

theorem updVal_length (ar : List Node) (i : Nat) (v : Int) :
    (updVal ar i v).length = ar.length := by
  induction ar generalizing i with
  | nil => rfl
  | cons n t ih =>
    cases i with
    | zero => rfl
    | succ i' => simp [updVal, ih]

theorem updVal_map_key (ar : List Node) (i : Nat) (v : Int) :
    ((updVal ar i v).map fun n => n.key) = ar.map fun n => n.key := by
  induction ar generalizing i with
  | nil => rfl
  | cons n t ih =>
    cases i with
    | zero => rfl
    | succ i' => simp [updVal, ih]

theorem updVal_map_links (ar : List Node) (i : Nat) (v : Int) :
    ((updVal ar i v).map fun n => n.nextNodes) = ar.map fun n => n.nextNodes := by
  induction ar generalizing i with
  | nil => rfl
  | cons n t ih =>
    cases i with
    | zero => rfl
    | succ i' => simp [updVal, ih]

theorem updVal_get?_self (ar : List Node) (v : Int) :
    ∀ {i : Nat} {n : Node}, ar.get? i = some n →
      (updVal ar i v).get? i = some { n with val := v } := by
  induction ar with
  | nil => intro i n h; simp at h
  | cons a t ih =>
    intro i n h
    cases i with
    | zero =>
      cases h
      rfl
    | succ i' =>
      simpa [updVal] using ih (by simpa using h)

theorem buildArena_map_key (es : List Entry) (b : Nat) :
    ((buildArena es b).map fun n => n.key) = es.map fun e => e.key := by
  induction es generalizing b with
  | nil => rfl
  | cons e t ih => simp [buildArena, ih]

/-- Claim C8: a Put on a container already holding the key overwrites
the value in place and makes no structural change: the head, the key
sequence, every forward link and the arena size are unchanged, exactly
one entry for the key remains, and that entry now carries the new
value. Proved for every well-formed container state. -/
theorem C8_put_updates_in_place {ml L : Nat} {es : List Entry} {k v : Int} (randL : Nat)
    (hs : List.Pairwise (fun a b => a.key < b.key) es)
    (hh : ∀ x ∈ es, 0 < x.h ∧ x.h ≤ L)
    {em : Entry} (hmem : em ∈ es) (hk : em.key = k) :
    ∃ sl', Put (build ml L es) randL k v = some sl' ∧
      sl'.head = (build ml L es).head ∧
      sl'.maxLevel = (build ml L es).maxLevel ∧
      (sl'.arena.map fun n => n.key) = ((build ml L es).arena.map fun n => n.key) ∧
      (sl'.arena.map fun n => n.nextNodes) =
        ((build ml L es).arena.map fun n => n.nextNodes) ∧
      sl'.arena.length = (build ml L es).arena.length ∧
      (sl'.arena.map fun n => n.key).count k = 1 ∧
      ∃ i nd, sl'.arena.get? i = some nd ∧ nd.key = k ∧ nd.val = v := by
  have hget : get (build ml L es) k = keyIdx k es := get_build_eq hs hh
  obtain ⟨m, hm⟩ : ∃ m, keyIdx k es = some m := by
    cases hki : keyIdx k es with
    | some m => exact ⟨m, rfl⟩
    | none => exact absurd hk (keyIdx_eq_none.mp hki em hmem)
  obtain ⟨em', hgm, hkm⟩ := keyIdx_eq_some hm
  have hL0 : ¬ Level (build ml L es) = 0 := by
    rw [Level_build]
    have h1 := (hh em hmem).1
    have h2 := (hh em hmem).2
    omega
  have hput : Put (build ml L es) randL k v =
      some { build ml L es with arena := updVal (build ml L es).arena m v } := by
    rw [Put, if_neg hL0]
    simp only [hget, hm]
  refine ⟨_, hput, rfl, rfl, updVal_map_key _ m v, updVal_map_links _ m v,
    updVal_length _ m v, ?_, ?_⟩
  · show ((updVal (build ml L es).arena m v).map fun n => n.key).count k = 1
    rw [updVal_map_key]
    rw [show (build ml L es).arena = buildArena es 0 from rfl, buildArena_map_key]
    have hnodup : (es.map fun e => e.key).Nodup :=
      List.Pairwise.imp (fun hlt => ne_of_lt hlt) (List.pairwise_map.mpr hs)
    exact List.count_eq_one_of_mem hnodup (List.mem_map.mpr ⟨em, hmem, hk⟩)
  · have hga : (build ml L es).arena.get? m =
        some { key := em'.key, val := em'.val
               nextNodes := (List.range em'.h).map fun l =>
                 (linkFrom (es.drop (m + 1)) l).map (· + (m + 1)) } := by
      rw [arena_build_get?, hgm]
      rfl
    exact ⟨m, _, updVal_get?_self _ v hga, hkm, rfl⟩

/-- Claim C6: Range(s, e) returns exactly the stored pairs with key in
[s, e], both bounds inclusive, sorted ascending by key, with no
duplicates and no omissions: on every well-formed container it equals
the in-order filter of the (strictly ascending, duplicate-free) entry
list. -/
theorem C6_range_exact {ml L : Nat} {es : List Entry} {s e : Int}
    (hs : List.Pairwise (fun a b => a.key < b.key) es)
    (hh : ∀ x ∈ es, 0 < x.h ∧ x.h ≤ L) :
    Range (build ml L es) s e =
      (es.filter fun x => decide (s ≤ x.key) && decide (x.key ≤ e)).map
        fun x => (x.key, x.val) :=
  Range_build_eq hs hh

/-- Claim C9: a freshly constructed container (positive maxLevel,
nothing inserted, zero active levels) reports not-found on Get, Ceil
and Floor for every key, returns the empty sequence for Range on any
bounds, and Del is a no-op. -/
theorem C9_empty_container (ml : Int) (hml : 0 < ml) (sl0 : SkipList)
    (h0 : NewSkipList ml = some sl0) (k s e : Int) :
    Get sl0 k = (0, false) ∧ Ceil sl0 k = none ∧ Floor sl0 k = none ∧
    Range sl0 s e = [] ∧ Del sl0 k = some sl0 := by
  rw [NewSkipList, if_neg (by omega)] at h0
  cases h0
  exact ⟨rfl, rfl, rfl, rfl, rfl⟩

/-- Claim C10: with inverted bounds (start greater than end) Range
returns the empty sequence on every well-formed container; in the
embedding Range is a pure function of the state, mirroring that the
source only reads the structure. -/
theorem C10_range_inverted_empty {ml L : Nat} {es : List Entry} {s e : Int}
    (hs : List.Pairwise (fun a b => a.key < b.key) es)
    (hh : ∀ x ∈ es, 0 < x.h ∧ x.h ≤ L) (hse : e < s) :
    Range (build ml L es) s e = [] := by
  rw [Range_build_eq hs hh]
  have hnil : (es.filter fun x => decide (s ≤ x.key) && decide (x.key ≤ e)) = [] := by
    rw [List.filter_eq_nil_iff]
    intro x hx
    simp
    omega
  rw [hnil]
  rfl

/-- Claim C1: the spec demands that the very first Put into a freshly
constructed container succeeds and a later Get finds it. The source
instead short-circuits Put whenever the head forward array is empty, so
the first insertion is silently dropped: after NewSkipList(4) and
Put(1, 10) (any drawn level, 0 shown), Get(1) still reports not-found
with the zero value. -/
theorem C1_first_put_dropped :
    NewSkipList 4 = some { maxLevel := 4, head := ⟨0, 0, []⟩, arena := [] } ∧
    Put { maxLevel := 4, head := ⟨0, 0, []⟩, arena := [] } 0 1 10 =
      some { maxLevel := 4, head := ⟨0, 0, []⟩, arena := [] } ∧
    Get { maxLevel := 4, head := ⟨0, 0, []⟩, arena := [] } 1 = (0, false) := by
  decide

/-- Claim C2: the spec demands that Del of a present key splices it out
so that Get reports not-found. The source inverts the existence guard
(it returns at once when get FOUND the key), so deleting the sole key 5
of a well-formed container changes nothing and Get(5) still returns
(50, true). -/
theorem C2_del_leaves_present_key :
    Del (build 1 1 [⟨5, 50, 1⟩]) 5 = some (build 1 1 [⟨5, 50, 1⟩]) ∧
    Get (build 1 1 [⟨5, 50, 1⟩]) 5 = (50, true) := by
  decide

/-- Claim C3: the spec demands that Floor reports the largest stored key
at or below the target, found exactly when one exists. The source
instead compares the walk result against the first base-level node by
pointer identity: on the container holding only key 5, Floor(5) reports
not-found although 5 is its own floor, and Floor(4) reports found,
handing back the sentinel zero pair (0, 0) although no floor exists. -/
theorem C3_floor_sentinel_misreports :
    Floor (build 1 1 [⟨5, 50, 1⟩]) 5 = none ∧
    Floor (build 1 1 [⟨5, 50, 1⟩]) 4 = some (0, 0) := by
  decide

/-- Claim C4: the spec demands that Put preserve the leveled
subsequence invariant (base level strictly ascending, distinct keys).
The rightward walk of Put compares the key of the CURRENT node instead
of the next one, so inserting key 3 (drawn level 0) into the well-formed
container holding key 5 splices 3 in AFTER 5: the base level afterwards
reads [5, 3] and the invariant check fails. -/
theorem C4_put_breaks_invariant :
    InvB (build 1 1 [⟨5, 50, 1⟩]) = true ∧
    Put (build 1 1 [⟨5, 50, 1⟩]) 0 3 30 =
      some { maxLevel := 1, head := ⟨0, 0, [some 0]⟩
             arena := [⟨5, 50, [some 1]⟩, ⟨3, 30, [none]⟩] } ∧
    InvB { maxLevel := 1, head := ⟨0, 0, [some 0]⟩
           arena := [⟨5, 50, [some 1]⟩, ⟨3, 30, [none]⟩] } = false := by
  decide

/-- Claim C5: the spec demands every operation complete normally, in
particular a Put whose drawn node height is below the current active
level. The splice loop of Put writes the new node forward array at
EVERY level of the head array, so on a well-formed container of active
level 2 a Put with drawn level 0 writes index 1 of a length-1 array:
an index-out-of-range fault, modelled as none. -/
theorem C5_put_short_node_faults :
    WF 2 [⟨5, 50, 2⟩] ∧ Put (build 1 2 [⟨5, 50, 2⟩]) 0 3 30 = none := by
  decide

theorem C6_range_exact_witness :
    (List.Pairwise (fun a b : Entry => a.key < b.key)
        [⟨1, 10, 1⟩, ⟨3, 30, 2⟩, ⟨9, 90, 1⟩] ∧
      ∀ x ∈ ([⟨1, 10, 1⟩, ⟨3, 30, 2⟩, ⟨9, 90, 1⟩] : List Entry), 0 < x.h ∧ x.h ≤ 2) ∧
    Range (build 4 2 [⟨1, 10, 1⟩, ⟨3, 30, 2⟩, ⟨9, 90, 1⟩]) 2 9 =
      (([⟨1, 10, 1⟩, ⟨3, 30, 2⟩, ⟨9, 90, 1⟩] : List Entry).filter fun x =>
        decide (2 ≤ x.key) && decide (x.key ≤ 9)).map fun x => (x.key, x.val) :=
  ⟨⟨by decide, by decide⟩, C6_range_exact (by decide) (by decide)⟩

theorem C7_ceil_correct_witness :
    (List.Pairwise (fun a b : Entry => a.key < b.key) [⟨1, 10, 1⟩, ⟨3, 30, 2⟩] ∧
      ∀ x ∈ ([⟨1, 10, 1⟩, ⟨3, 30, 2⟩] : List Entry), 0 < x.h ∧ x.h ≤ 2) ∧
    ((∀ k v, Ceil (build 4 2 [⟨1, 10, 1⟩, ⟨3, 30, 2⟩]) 2 = some (k, v) →
        (∃ e ∈ ([⟨1, 10, 1⟩, ⟨3, 30, 2⟩] : List Entry), e.key = k ∧ e.val = v) ∧
          2 ≤ k ∧
          ∀ x ∈ ([⟨1, 10, 1⟩, ⟨3, 30, 2⟩] : List Entry), 2 ≤ x.key → k ≤ x.key) ∧
      (Ceil (build 4 2 [⟨1, 10, 1⟩, ⟨3, 30, 2⟩]) 2 = none →
        ∀ x ∈ ([⟨1, 10, 1⟩, ⟨3, 30, 2⟩] : List Entry), x.key < 2) ∧
      ((∀ x ∈ ([⟨1, 10, 1⟩, ⟨3, 30, 2⟩] : List Entry), x.key < 2) →
        Ceil (build 4 2 [⟨1, 10, 1⟩, ⟨3, 30, 2⟩]) 2 = none)) :=
  ⟨⟨by decide, by decide⟩, C7_ceil_correct (by decide) (by decide)⟩

theorem C8_put_updates_in_place_witness :
    (List.Pairwise (fun a b : Entry => a.key < b.key) [⟨1, 10, 1⟩, ⟨3, 30, 2⟩] ∧
      (∀ x ∈ ([⟨1, 10, 1⟩, ⟨3, 30, 2⟩] : List Entry), 0 < x.h ∧ x.h ≤ 2) ∧
      (⟨3, 30, 2⟩ : Entry) ∈ ([⟨1, 10, 1⟩, ⟨3, 30, 2⟩] : List Entry) ∧
      (⟨3, 30, 2⟩ : Entry).key = 3) ∧
    (∃ sl', Put (build 4 2 [⟨1, 10, 1⟩, ⟨3, 30, 2⟩]) 0 3 77 = some sl' ∧
      sl'.head = (build 4 2 [⟨1, 10, 1⟩, ⟨3, 30, 2⟩]).head ∧
      sl'.maxLevel = (build 4 2 [⟨1, 10, 1⟩, ⟨3, 30, 2⟩]).maxLevel ∧
      (sl'.arena.map fun n => n.key) =
        ((build 4 2 [⟨1, 10, 1⟩, ⟨3, 30, 2⟩]).arena.map fun n => n.key) ∧
      (sl'.arena.map fun n => n.nextNodes) =
        ((build 4 2 [⟨1, 10, 1⟩, ⟨3, 30, 2⟩]).arena.map fun n => n.nextNodes) ∧
      sl'.arena.length = (build 4 2 [⟨1, 10, 1⟩, ⟨3, 30, 2⟩]).arena.length ∧
      (sl'.arena.map fun n => n.key).count 3 = 1 ∧
      ∃ i nd, sl'.arena.get? i = some nd ∧ nd.key = 3 ∧ nd.val = 77) :=
  ⟨⟨by decide, by decide, by decide, by decide⟩,
    @C8_put_updates_in_place 4 2 [⟨1, 10, 1⟩, ⟨3, 30, 2⟩] 3 77 0 (by decide)
      (by decide) ⟨3, 30, 2⟩ (by decide) (by decide)⟩

theorem C9_empty_container_witness :
    ((0 : Int) < 4 ∧ NewSkipList 4 = some ⟨4, ⟨0, 0, []⟩, []⟩) ∧
    (Get ⟨4, ⟨0, 0, []⟩, []⟩ 1 = (0, false) ∧
      Ceil ⟨4, ⟨0, 0, []⟩, []⟩ 1 = none ∧
      Floor ⟨4, ⟨0, 0, []⟩, []⟩ 1 = none ∧
      Range ⟨4, ⟨0, 0, []⟩, []⟩ 2 3 = [] ∧
      Del ⟨4, ⟨0, 0, []⟩, []⟩ 1 = some ⟨4, ⟨0, 0, []⟩, []⟩) :=
  ⟨⟨by decide, by decide⟩, C9_empty_container 4 (by decide) _ (by decide) 1 2 3⟩

theorem C10_range_inverted_empty_witness :
    (List.Pairwise (fun a b : Entry => a.key < b.key)
        [⟨1, 10, 1⟩, ⟨3, 30, 2⟩, ⟨9, 90, 1⟩] ∧
      (∀ x ∈ ([⟨1, 10, 1⟩, ⟨3, 30, 2⟩, ⟨9, 90, 1⟩] : List Entry), 0 < x.h ∧ x.h ≤ 2) ∧
      (2 : Int) < 5) ∧
    Range (build 4 2 [⟨1, 10, 1⟩, ⟨3, 30, 2⟩, ⟨9, 90, 1⟩]) 5 2 = [] :=
  ⟨⟨by decide, by decide, by decide⟩,
    C10_range_inverted_empty (by decide) (by decide) (by decide)⟩

end Skiplist
